import Mathlib

/-!
Verification development for the mini-RAG backend.

Shallow embedding of the retrieval / ingest engine:
* the processing worker's pending-document query (`backend/services/ingest/worker.py`),
* the reranker's adaptive threshold and `rerank` (`backend/services/reranker.py`),
* the SSE event generator of `/query/stream` (`backend/api/chat.py`),
* the Zotero poller tick and new-only sync (`backend/services/integrations/zotero/`),
* the parent/child chunker and parent side-store loader
  (`backend/services/document_processor.py`),
* the TF-hash sparse embedding (`backend/services/embeddings.py`).

External collaborators (the SQL engine, the file system, the neural encoders,
langchain text splitters, the Python string hash, the Zotero HTTP client) are
modelled as explicit function parameters; pure Python code is translated
function by function.  Python floats are modelled as exact reals.
-/

/-! ### Generic helpers: a stable insertion sort

Python's `sorted` is a stable sort.  `insertLe le a l` inserts `a` before the
first element `b` with `le a b`; `insSort` sorts by inserting from the right,
so an element originally to the left of a tie ends up to its left, which is
exactly the stability contract of `sorted`. -/

def insertLe {α : Type} (le : α → α → Bool) (a : α) : List α → List α
  | [] => [a]
  | b :: l => if le a b then a :: b :: l else b :: insertLe le a l

def insSort {α : Type} (le : α → α → Bool) : List α → List α
  | [] => []
  | a :: l => insertLe le a (insSort le l)

/-! ### Python string helpers -/

/-- Python `str.lower`, modelled on the ASCII range plus the German letters
that occur in the sparse-embedding character class (`Ä Ö Ü`; `ß` is already
lowercase).  Other characters are left unchanged. -/
def pyLower (s : String) : String :=
  String.mk (s.data.map (fun c =>
    if c = 'Ä' then 'ä'
    else if c = 'Ö' then 'ö'
    else if c = 'Ü' then 'ü'
    else c.toLower))

/-- Python `str.strip`: drop leading and trailing whitespace. -/
def pyStrip (s : String) : String :=
  String.mk
    (((s.data.dropWhile Char.isWhitespace).reverse.dropWhile
      Char.isWhitespace).reverse)

/-- Python `str.endswith`. -/
def strEndsWith (s suffix : String) : Bool :=
  List.isSuffixOf suffix.data s.data

/-- Python `a or b` for an optional string `a` with default `b`:
the left value is taken when it is present and truthy (non-empty). -/
def pyOrStr (o : Option String) (alt : String) : String :=
  match o with
  | some s => if s = "" then alt else s
  | none => alt

/-! ### C1 — processing worker: pending-document selection

From `backend/services/ingest/worker.py`, `process_documents`:

```
pending_doc = db.query(Document).filter(
    Document.processed == False,
    or_(Document.num_chunks is None, Document.num_chunks >= 0)
).first()
```

`Document.num_chunks is None` is a Python identity test on the column object,
which is not `None`; it evaluates to the Python constant `False`, which
SQLAlchemy coerces to the SQL literal `false`.  The rendered filter is
therefore `processed = false AND (false OR num_chunks >= 0)`.

From `backend/persistence/models.py` the `num_chunks` column is
`Mapped[int]` with `default=0`: it is NOT NULL, so a document row always
carries an integer chunk count; `-1` is the terminal failure sentinel. -/

structure WDoc where
  id : Int
  filename : String
  processed : Bool
  numChunks : Int
deriving DecidableEq, Repr

/-- The Python constant produced by `Document.num_chunks is None`
(the column object is not `None`). -/
def numChunksIsNoneConst : Bool := false

/-- The worker's rendered SQL filter:
`processed = false AND (false OR num_chunks >= 0)`. -/
def workerPendingFilter (d : WDoc) : Bool :=
  (!d.processed) && (numChunksIsNoneConst || decide (0 ≤ d.numChunks))

/-- `.first()` on the filtered query: the first row satisfying the filter. -/
def selectPending (docs : List WDoc) : Option WDoc :=
  docs.find? workerPendingFilter

/-! ### C10 — `load_parent_document`

From `backend/services/document_processor.py`:

```
def load_parent_document(pickle_path, parent_id):
    if not pickle_path: return ""
    try:
        with open(pickle_path, 'rb') as f: parent_docs = pickle.load(f)
        if parent_id < len(parent_docs): return parent_docs[parent_id]
        return ""
    except FileNotFoundError: return ""
    except Exception: return ""
```

The file system (open + unpickle) is modelled as a partial map
`fs : String → Option (List String)`; `none` covers a missing file and any
unreadable/undecodable content (both are caught and turned into `""`). -/

def loadParentDocument (fs : String → Option (List String))
    (picklePath : Option String) (parentId : Nat) : String :=
  match picklePath with
  | none => ""
  | some p =>
    if p = "" then ""
    else
      match fs p with
      | none => ""
      | some parentDocs =>
        if parentId < parentDocs.length then parentDocs.getD parentId ""
        else ""

/-! ### C3 — SSE event generator of `/query/stream`

From `backend/api/chat.py`, `query_documents_stream`.  The retrieval thread
fills a queue with `("thinking", step)` events and finally `("done", None)`;
errors land in `retrieval_result["error"]`.  The generator drains the queue,
then:

```
if retrieval_result["error"]:
    raise Exception(retrieval_result["error"])
...
except Exception as e:
    db.rollback()
    logger.exception(f"Streaming failed: {e}")
    yield format_sse_event({"type": "error", "message": str(exc)})
```

The handler reads `exc`, not `e`.  `exc` is the `except Exception as exc`
variable of the *enclosing* request handler; Python deletes that binding when
its `except` block exits, and on the path that reaches the generator that
block never ran at all, so the name is unbound.  Evaluating `str(exc)` in the
handler therefore raises `NameError` instead of yielding the error event. -/

inductive QEvent
  | thinkingStep (step : String)
  | doneMark
deriving DecidableEq, Repr

structure RetrievalResult where
  contexts : List String
  sources : List String
  error : Option String
deriving DecidableEq, Repr

inductive SSE
  | thinkingEv (step : String)
  | chunkEv (content : String)
  | endEv (content : String) (sources : List String)
  | errorEv (message : String)
deriving DecidableEq, Repr

structure GenOut where
  events : List SSE
  raisedError : Option String
deriving DecidableEq, Repr

/-- The message of the exception actually raised on the error path:
the name `exc` is unbound in the generator's scope. -/
def nameErrorExc : String := "NameError: name exc is not defined"

/-- The canned answer persisted when retrieval produced no contexts. -/
def cannedNoResults : String := "No relevant information found."

/-- The queue-draining loop: yield a `thinking` event per queued step, stop at
`("done", None)` (or when the queue is empty and the done flag is set). -/
def drainThinking : List QEvent → List SSE
  | [] => []
  | QEvent.doneMark :: _ => []
  | QEvent.thinkingStep s :: rest => SSE.thinkingEv s :: drainThinking rest

/-- The event generator after the retrieval thread has finished.  `queue` is
the queue contents, `r` the shared result slot, `tokens` the answer stream of
`generate_answer_stream`.  Message persistence is not modelled; the outputs
are the emitted SSE events and the exception (if any) escaping the
generator. -/
def eventGenerator (queue : List QEvent) (r : RetrievalResult)
    (tokens : List String) : GenOut :=
  let thinks := drainThinking queue
  match r.error with
  | some _ =>
    -- `raise Exception(error)` is caught by the generator's handler, whose
    -- `str(exc)` raises NameError (see above): no error event is emitted.
    { events := thinks, raisedError := some nameErrorExc }
  | none =>
    if r.contexts = [] then
      { events := thinks ++ [SSE.endEv cannedNoResults []], raisedError := none }
    else
      let kept := tokens.filter (fun t => t ≠ "")
      { events := thinks ++ kept.map SSE.chunkEv
          ++ [SSE.endEv (String.join kept) r.sources],
        raisedError := none }

/-- What the specification says the generator does on the error path:
emit a terminal `error` event carrying the message and close gracefully.
Modelled from the spec: "If retrieval errored, emit `error` event"; "SSE
streams emit a terminal `error` event and close gracefully".  Used to state
the divergence of the code from the claim. -/
def specErrorPathEvents (queue : List QEvent) (msg : String) : GenOut :=
  { events := drainThinking queue ++ [SSE.errorEv msg], raisedError := none }

/-! ### C4 — Zotero poller tick

From `backend/services/integrations/zotero/poller.py`,
`_sync_check_documents`.  The auto-sync branch reads

```
result = sync_service.sync_new_documents_only
synced = result.get('synced', 0)
```

The method is never called (no parentheses): `result` is the bound method
object, and `result.get(...)` raises `AttributeError`, which the surrounding
`except Exception as sync_exc` swallows with a log line.  Neither the sync
nor the worker trigger ever runs. -/

structure ZItem where
  key : String
  itemType : String
  filename : Option String
  title : Option String
deriving DecidableEq, Repr

/-- `data.get('filename') or data.get('title', '')` in the poller loop. -/
def pollerFilename (it : ZItem) : String :=
  pyOrStr it.filename (it.title.getD "")

/-- The poller's new-document test for one item: attachment, `.pdf` suffix
(case-insensitive), non-empty, and not among existing filenames. -/
def isNewPdf (existing : List String) (it : ZItem) : Bool :=
  it.itemType == "attachment"
    && strEndsWith (pyLower (pollerFilename it)) ".pdf"
    && pollerFilename it != ""
    && !(existing.contains (pollerFilename it))

structure PollOutcome where
  newCount : Nat
  syncInvoked : Bool
  workerTriggered : Bool
  autoSyncError : Option String
deriving DecidableEq, Repr

/-- Line 95 of the poller omits the call parentheses: the attribute lookup
`result.get` on the bound method object raises.  The branch can therefore
never produce sync counts. -/
def methodGetAttempt : Except String (Nat × Nat × Nat) :=
  Except.error "AttributeError: function object has no attribute get"

/-- One `_sync_check_documents` tick.  `existing` are the Document filenames
in the database, `items` the fetched Zotero item list. -/
def pollerSyncCheck (existing : List String) (items : List ZItem)
    (autoSync : Bool) : PollOutcome :=
  let newCount := (items.filter (isNewPdf existing)).length
  if 0 < newCount then
    if autoSync then
      match methodGetAttempt with
      | Except.ok (synced, _, _) =>
        { newCount := newCount, syncInvoked := true,
          workerTriggered := 0 < synced, autoSyncError := none }
      | Except.error e =>
        { newCount := newCount, syncInvoked := false,
          workerTriggered := false, autoSyncError := some e }
    else
      { newCount := newCount, syncInvoked := false,
        workerTriggered := false, autoSyncError := none }
  else
    { newCount := newCount, syncInvoked := false,
      workerTriggered := false, autoSyncError := none }

/-! ### C5 / C6 — the chunker (`DocumentProcessor.process_document`)

From `backend/services/document_processor.py`.  The three langchain text
splitters are external collaborators and enter the model as function
parameters:

* `hs` models `MarkdownHeaderTextSplitter.split_text`, returning documents
  with `page_content` and a heading metadata map over `h1`..`h6`;
* `ps` models `parent_splitter.split_text`;
* `cs` models `child_splitter.split_text`.

Python `str.strip` is modelled by `pyStrip`; `pickle.dump` of the parent
array is modelled by returning the stored array alongside the chunks. -/

structure HeaderDoc where
  pageContent : String
  metadata : List (String × String)
deriving DecidableEq, Repr

def headingLevels : List String := ["h1", "h2", "h3", "h4", "h5", "h6"]

/-- `metadata.get(level)` for each heading level, kept when truthy, joined
with `" / "`; `"Body"` when no heading is present. -/
def headingPath (md : List (String × String)) : String :=
  let parts := headingLevels.filterMap (fun lvl =>
    match md.lookup lvl with
    | some v => if v = "" then none else some v
    | none => none)
  if parts = [] then "Body" else String.intercalate " / " parts

/-- `_segment_sections`: one `(heading, content)` pair per non-empty split
document, falling back to a single `Body` section over the whole text. -/
def segmentSections (hs : String → List HeaderDoc) (text : String) :
    List (String × String) :=
  let secs := (hs text).filterMap (fun d =>
    let content := pyStrip d.pageContent
    if content = "" then none else some (headingPath d.metadata, content))
  if secs = [] then [("Body", pyStrip text)] else secs

/-- `_build_parent_chunks`: per section, split the content with the parent
splitter; non-`Body` headings are prepended to each split.  Returns the
parallel lists `(parent_docs, parent_sections)`. -/
def buildParentChunks (ps : String → List String) :
    List (String × String) → List String × List String
  | [] => ([], [])
  | (heading, content0) :: rest =>
    let content := pyStrip content0
    let tl := buildParentChunks ps rest
    if content = "" then tl
    else
      let splits := ps content
      let texts := splits.map (fun s =>
        if heading ≠ "Body" then pyStrip (heading ++ "\n\n" ++ s) else pyStrip s)
      (texts ++ tl.1, splits.map (fun _ => heading) ++ tl.2)

/-- `_determine_position`: relative position of a parent among all parents.
Python float division is modelled as exact rational division. -/
def determinePosition (chunkIndex totalChunks : Nat) : String :=
  if totalChunks ≤ 1 then "full"
  else
    let relativePos : ℚ := (chunkIndex : ℚ) / (totalChunks : ℚ)
    if relativePos < 1/5 then "beginning"
    else if relativePos > 4/5 then "end"
    else "middle"

structure Chunk where
  text : String
  parent_id : Nat
  doc_id : Int
  document_name : String
  sectionLabel : String
  position : String
  chunk_index : Nat
  chunk_id : Option Int
  is_metadata : Bool
deriving DecidableEq, Repr

/-- The inner loop `for child_text in child_texts` of `process_document`:
one chunk per child window, with the running `chunk_counter`. -/
def childChunksOf (docId : Int) (name sec pos : String) (pid : Nat) :
    List String → Nat → List Chunk
  | [], _ => []
  | t :: ts, counter =>
    { text := t, parent_id := pid, doc_id := docId, document_name := name,
      sectionLabel := sec, position := pos, chunk_index := counter,
      chunk_id := none, is_metadata := false }
      :: childChunksOf docId name sec pos pid ts (counter + 1)

/-- The outer loop of `process_document` over `enumerate(parent_docs)`:
`p` is the running original parent index, `counter` the running
`chunk_counter`.  Each child window of parent `p` is tagged with
`parent_id = p + offset`, the parent's section (with the code's
`parent_id < len(parent_sections)` guard rendered by `getD _ "Body"`) and
`_determine_position(p, total)`. -/
def buildChildChunks (cs : String → List String) (docId : Int) (name : String)
    (parentSections : List String) (total offset : Nat) :
    List String → Nat → Nat → List Chunk
  | [], _, _ => []
  | ptext :: rest, p, counter =>
    let sec := parentSections.getD p "Body"
    let pos := determinePosition p total
    let kids := childChunksOf docId name sec pos (p + offset) (cs ptext) counter
    kids ++ buildChildChunks cs docId name parentSections total offset rest
      (p + 1) (counter + kids.length)

/-- The metadata chunk emitted when a metadata string is provided. -/
def metaChunkOf (m : String) (docId : Int) (name : String) : Chunk :=
  { text := m, parent_id := 0, doc_id := docId, document_name := name,
    sectionLabel := "Document Metadata", position := "metadata",
    chunk_index := 0, chunk_id := some (-1), is_metadata := true }

structure ProcResult where
  chunks : List Chunk
  stored : List String
deriving DecidableEq, Repr

/-- The effective metadata argument after Python truthiness:
`none` and `some ""` both behave as "no metadata chunk". -/
def metaOptOf : Option String → Option String
  | some m => if m = "" then none else some m
  | none => none

/-- `parent_offset` as set by `process_document`. -/
def parentOffsetOf (mo : Option String) : Nat :=
  match metaOptOf mo with
  | some _ => 1
  | none => 0

/-- `process_document`.  `metadataChunk` mirrors the Python
`if metadata_chunk:` truthiness test: `none` and the empty string both take
the no-metadata path.  `stored` is the parent array pickled to the
side-store. -/
def processDocument (hs : String → List HeaderDoc)
    (ps cs : String → List String) (docId : Int) (text : String)
    (name : String) (metadataChunk : Option String) : ProcResult :=
  let sections := segmentSections hs text
  let built := buildParentChunks ps sections
  let parentDocs := built.1
  let parentSections := built.2
  match metaOptOf metadataChunk with
  | some m =>
    { chunks := metaChunkOf m docId name
        :: buildChildChunks cs docId name parentSections parentDocs.length 1
          parentDocs 0 1,
      stored := m :: parentDocs }
  | none =>
    { chunks := buildChildChunks cs docId name parentSections
        parentDocs.length 0 parentDocs 0 0,
      stored := parentDocs }

/-- Shift of a content chunk caused by a prepended metadata chunk:
`parent_id` and `chunk_index` both move up by one. -/
def shiftChunk (c : Chunk) : Chunk :=
  { c with parent_id := c.parent_id + 1, chunk_index := c.chunk_index + 1 }

/-- A header splitter that reports the whole text as one heading-free
document — the behaviour of `MarkdownHeaderTextSplitter` on text without
markdown headings.  Used for concrete instantiations. -/
def hsId : String → List HeaderDoc :=
  fun t => [{ pageContent := t, metadata := [] }]

/-- A splitter that keeps a short text as a single window — the behaviour of
`RecursiveCharacterTextSplitter` on input below the chunk size.  Used for
concrete instantiations. -/
def splitId : String → List String := fun s => [s]

/-! ### C9 — Zotero new-only sync (`ZoteroSyncService`)

From `backend/services/integrations/zotero/sync.py`.  The Zotero download
(`download_document` plus the `os.path.exists` check) is modelled as a
deterministic partial map `download : String → Option String` from item key
to downloaded file path; `none` covers a falsy return value, a missing file
and a raised exception (all end in a non-queued status). -/

structure DocRow where
  filename : String
  filePath : String
  processed : Bool
  numChunks : Int
  queryEnabled : Bool
deriving DecidableEq, Repr

inductive SyncStatus
  | queued
  | skippedNotAttachment
  | skippedNotPdf
  | skippedAlreadyExists
  | failedDownload
deriving DecidableEq, Repr

def dbFilenames (db : List DocRow) : List String :=
  db.map (fun d => d.filename)

/-- `db.query(Document).filter(Document.filename == fn).first()`. -/
def findByFilename (db : List DocRow) (fn : String) : Option DocRow :=
  db.find? (fun d => d.filename == fn)

/-- Update of the first row matching `fn`:
`doc.file_path = path; doc.processed = False; doc.num_chunks = 0`. -/
def updateFirstRow : List DocRow → String → String → List DocRow
  | [], _, _ => []
  | d :: rest, fn, path =>
    if d.filename == fn then
      { d with filePath := path, processed := false, numChunks := 0 } :: rest
    else d :: updateFirstRow rest fn path

/-- `data.get('filename') or data.get('title', 'unknown.pdf')` in
`_sync_single_item`. -/
def itemSyncFilename (it : ZItem) : String :=
  pyOrStr it.filename (it.title.getD "unknown.pdf")

/-- `_sync_single_item`: skip non-attachments and non-PDFs, skip filenames
already synced and processed, otherwise download and upsert an unprocessed
Document row. -/
def syncSingleItem (download : String → Option String) (it : ZItem)
    (db : List DocRow) : SyncStatus × List DocRow :=
  if it.itemType ≠ "attachment" then (SyncStatus.skippedNotAttachment, db)
  else
    let fn := itemSyncFilename it
    if ¬ strEndsWith (pyLower fn) ".pdf" then (SyncStatus.skippedNotPdf, db)
    else
      match findByFilename db fn with
      | some ex =>
        if ex.processed then (SyncStatus.skippedAlreadyExists, db)
        else
          match download it.key with
          | none => (SyncStatus.failedDownload, db)
          | some path => (SyncStatus.queued, updateFirstRow db fn path)
      | none =>
        match download it.key with
        | none => (SyncStatus.failedDownload, db)
        | some path =>
          (SyncStatus.queued,
            db ++ [{ filename := fn, filePath := path, processed := false,
                     numChunks := 0, queryEnabled := true }])

structure SyncCounts where
  synced : Nat
  skipped : Nat
  failed : Nat
deriving DecidableEq, Repr

def bumpCount (st : SyncStatus) (c : SyncCounts) : SyncCounts :=
  match st with
  | SyncStatus.queued => { c with synced := c.synced + 1 }
  | SyncStatus.skippedNotAttachment => { c with skipped := c.skipped + 1 }
  | SyncStatus.skippedNotPdf => { c with skipped := c.skipped + 1 }
  | SyncStatus.skippedAlreadyExists => { c with skipped := c.skipped + 1 }
  | SyncStatus.failedDownload => { c with failed := c.failed + 1 }

/-- The per-item loop of `sync_new_documents_only`, threading the session. -/
def syncRun (download : String → Option String) :
    List ZItem → List DocRow → SyncCounts × List DocRow
  | [], db => ({ synced := 0, skipped := 0, failed := 0 }, db)
  | it :: rest, db =>
    let step := syncSingleItem download it db
    let tl := syncRun download rest step.2
    (bumpCount step.1 tl.1, tl.2)

/-- `data.get('filename') or data.get('title', '')` in the new-items
filter of `sync_new_documents_only`. -/
def newFilterName (it : ZItem) : String :=
  pyOrStr it.filename (it.title.getD "")

/-- The new-items filter: attachments with a non-empty filename not yet
present among the Document filenames.  Note: no `.pdf` check here — that
happens inside `_sync_single_item`. -/
def isNewItem (existing : List String) (it : ZItem) : Bool :=
  it.itemType == "attachment"
    && newFilterName it != ""
    && !(existing.contains (newFilterName it))

/-- `sync_new_documents_only`. -/
def syncNewDocumentsOnly (enabled : Bool)
    (download : String → Option String) (items : List ZItem)
    (db : List DocRow) : SyncCounts × List DocRow :=
  if ¬ enabled then ({ synced := 0, skipped := 0, failed := 0 }, db)
  else
    let existing := dbFilenames db
    let newItems := items.filter (isNewItem existing)
    syncRun download newItems db

/-! ### C2 / C8 — reranker (`backend/services/reranker.py`)

Scores come from the cross-encoder (`self.model.predict`), an opaque neural
model entering the embedding as a parameter `predict`.  Python floats are
modelled as exact reals; real-number comparisons use classical
decidability, hence the `noncomputable` markers. -/

open scoped Classical

/-- `np.max` of a score list (only used on non-empty lists). -/
noncomputable def npMax : List ℝ → ℝ
  | [] => 0
  | a :: l => l.foldl max a

/-- `np.mean`. -/
noncomputable def npMean (l : List ℝ) : ℝ := l.sum / l.length

/-- The population variance underlying `np.std`. -/
noncomputable def npVar (l : List ℝ) : ℝ :=
  ((l.map (fun x => (x - npMean l) ^ 2)).sum) / l.length

/-- `np.std` (population standard deviation). -/
noncomputable def npStd (l : List ℝ) : ℝ := Real.sqrt (npVar l)

/-- `np.sort(scores_array)[::-1]`: the scores sorted descending. -/
noncomputable def sortDescR (l : List ℝ) : List ℝ :=
  insSort (fun a b : ℝ => decide (b ≤ a)) l

/-- `_calculate_dynamic_threshold` (`BASE_THRESHOLD = 0.2`). -/
noncomputable def dynamicThreshold (scores : List ℝ) : ℝ × String :=
  if scores.length = 0 then (0.2, "no_scores")
  else
    let maxScore := npMax scores
    let meanScore := npMean scores
    let stdScore := npStd scores
    let sortedScores := sortDescR scores
    if 2 ≤ scores.length ∧ sortedScores.getD 0 0 - sortedScores.getD 1 0 > 0.3 then
      (sortedScores.getD 0 0 - 0.01, "clear_winner")
    else if meanScore > 0.5 then
      (max (meanScore - stdScore * 0.5) 0.2, "high_quality_results")
    else if stdScore > 0.2 then
      (max meanScore 0.2, "high_variance")
    else if maxScore < 0.3 then
      (maxScore * 0.5, "low_quality_all")
    else
      (max (meanScore - stdScore) 0.2, "adaptive")

structure RDoc where
  text : String
  rerank_score : ℝ
  threshold_used : Option ℝ
  threshold_reason : Option String

/-- `doc['rerank_score'] = score` for every document, in order:
the documents zipped with the predicted scores. -/
noncomputable def rerankScored (predict : String → String → ℝ)
    (query : String) (docs : List RDoc) : List RDoc :=
  List.zipWith (fun d s => { d with rerank_score := s }) docs
    (docs.map (fun d => predict query d.text))

/-- `sorted(documents, key=rerank_score, reverse=True)` (stable). -/
noncomputable def sortDescRD (l : List RDoc) : List RDoc :=
  insSort (fun a b : RDoc => decide (b.rerank_score ≤ a.rerank_score)) l

/-- `lst[0]['threshold_used'] = thr; lst[0]['threshold_reason'] = reason`. -/
noncomputable def setThresholdMeta (thr : ℝ) (reason : String) :
    List RDoc → List RDoc
  | [] => []
  | d :: rest =>
    { d with threshold_used := some thr, threshold_reason := some reason }
      :: rest

/-- `RerankerService.rerank`. -/
noncomputable def rerank (predict : String → String → ℝ) (query : String)
    (docs : List RDoc) (topK : Nat) (applyThreshold : Bool) : List RDoc :=
  if docs.isEmpty then []
  else
    let scoresList := docs.map (fun d => predict query d.text)
    let scored := rerankScored predict query docs
    let reranked := sortDescRD scored
    if applyThreshold then
      let tr := dynamicThreshold scoresList
      let filtered := reranked.filter
        (fun d => decide (tr.1 ≤ d.rerank_score))
      if ¬ filtered.isEmpty then
        (setThresholdMeta tr.1 tr.2 filtered).take topK
      else if ¬ reranked.isEmpty then
        (setThresholdMeta tr.1 "fallback_below_threshold" reranked).take 1
      else reranked.take topK
    else reranked.take topK

/-! ### C7 — sparse TF-hash embedding (`SparseEmbedding.embed`)

From `backend/services/embeddings.py`.  The built-in Python string hash is
opaque (and salted per process); it enters the model as a parameter
`h : String → Int`, and `hash(token) % 30000` is its non-negative remainder.

Tokenization in the source is `re.findall(r'\b[a-zA-ZäöüÄÖÜß]+\b', lower)`.
Since every character of the class is a word character, a match must start
and end exactly at the boundaries of a maximal `\w`-run: the tokens are the
maximal word-character runs that consist entirely of class characters.
`\w` (Unicode letters, digits, underscore) is modelled over the alphabet
relevant to this code: ASCII alphanumerics, the underscore and the German
letters of the class. -/

/-- The character class `[a-zA-ZäöüÄÖÜß]`. -/
def isClassChar (c : Char) : Bool :=
  (decide ('a' ≤ c) && decide (c ≤ 'z'))
    || (decide ('A' ≤ c) && decide (c ≤ 'Z'))
    || c == 'ä' || c == 'ö' || c == 'ü'
    || c == 'Ä' || c == 'Ö' || c == 'Ü' || c == 'ß'

/-- Python regex `\w`, modelled over ASCII plus the German letters. -/
def isWordChar (c : Char) : Bool :=
  c.isAlphanum || c == '_' || isClassChar c

/-- Maximal runs of characters satisfying `p` (accumulator-style so that the
definition is structural and evaluates definitionally). -/
def charRunsAux (p : Char → Bool) : List Char → List Char → List (List Char)
  | [], acc => if acc.isEmpty then [] else [acc.reverse]
  | c :: cs, acc =>
    if p c then charRunsAux p cs (c :: acc)
    else if acc.isEmpty then charRunsAux p cs []
    else acc.reverse :: charRunsAux p cs []

def charRuns (p : Char → Bool) (l : List Char) : List (List Char) :=
  charRunsAux p l []

/-- `SparseEmbedding._tokenize`: lowercase, `findall(r'\b[C]+\b')` rendered
as the maximal word-runs wholly inside the class (see the section comment),
then drop tokens of length ≤ 2. -/
def codeTokenize (text : String) : List String :=
  let lowered := (pyLower text).data
  let wordRuns := charRuns isWordChar lowered
  let matched := wordRuns.filter (fun r => r.all isClassChar)
  (matched.map (fun r => String.mk r)).filter (fun t => 2 < t.length)

/-- The tokenizer as the claim words it: maximal runs of class characters
(no word-boundary requirement), dropping tokens of length ≤ 2. -/
def claimTokenize (text : String) : List String :=
  let lowered := (pyLower text).data
  ((charRuns isClassChar lowered).map (fun r => String.mk r)).filter
    (fun t => 2 < t.length)

/-- One step of `collections.Counter`: bump the count of `t`, keeping keys in
first-occurrence order. -/
def bumpToken : List (String × Nat) → String → List (String × Nat)
  | [], t => [(t, 1)]
  | (s, c) :: rest, t =>
    if s == t then (s, c + 1) :: rest else (s, c) :: bumpToken rest t

/-- `Counter(tokens).items()`. -/
def tokenCounter (ts : List String) : List (String × Nat) :=
  ts.foldl bumpToken []

/-- `hash(token) % vocab_size` with `vocab_size = 30000`: the non-negative
remainder of the (possibly negative) Python hash. -/
def hashIdx (h : String → Int) (t : String) : Nat :=
  (h t % 30000).toNat

/-- `tf_score = 1 + log(c) if c > 0 else 0; score = tf_score / sqrt(total)`. -/
noncomputable def tokenScore (total : Nat) (c : Nat) : ℝ :=
  (if 0 < c then 1 + Real.log c else 0) / Real.sqrt total

/-- Lookup in the ordered dict `deduped`. -/
def lookupIdx : List (Nat × ℝ) → Nat → Option ℝ
  | [], _ => none
  | (j, w) :: rest, i => if j = i then some w else lookupIdx rest i

/-- In-place value update of the ordered dict `deduped`. -/
def updateIdx : List (Nat × ℝ) → Nat → ℝ → List (Nat × ℝ)
  | [], _, _ => []
  | (j, w) :: rest, i, v =>
    if j = i then (j, v) :: rest else (j, w) :: updateIdx rest i v

/-- `if idx not in deduped or val > deduped[idx]: deduped[idx] = val`, on a
Python dict that preserves key insertion order. -/
noncomputable def dictInsert (d : List (Nat × ℝ)) (pr : Nat × ℝ) :
    List (Nat × ℝ) :=
  match lookupIdx d pr.1 with
  | none => d ++ [pr]
  | some v => if v < pr.2 then updateIdx d pr.1 pr.2 else d

/-- `sorted(zip(indices, values), key=lambda x: x[0])` (stable). -/
noncomputable def sortPairsAsc (l : List (Nat × ℝ)) : List (Nat × ℝ) :=
  insSort (fun a b : Nat × ℝ => decide (a.1 ≤ b.1)) l

/-- The body of `SparseEmbedding.embed` after tokenization: term
frequencies, scores, hashing, stable sort by index, dict-dedup keeping the
larger value, then the dict's keys and values. -/
noncomputable def sparsePipeline (h : String → Int) (tokens : List String) :
    List Nat × List ℝ :=
  if tokens.isEmpty then ([], [])
  else
    let total := tokens.length
    let tf := tokenCounter tokens
    let pairs := tf.map (fun tc => (hashIdx h tc.1, tokenScore total tc.2))
    let dd := (sortPairsAsc pairs).foldl dictInsert []
    (dd.map (fun pr => pr.1), dd.map (fun pr => pr.2))

/-- `SparseEmbedding.embed`. -/
noncomputable def sparseEmbed (h : String → Int) (text : String) :
    List Nat × List ℝ :=
  sparsePipeline h (codeTokenize text)

/-- `max` of a non-empty real list (0 for the empty list, which is never
consulted). -/
noncomputable def maxD : List ℝ → ℝ
  | [] => 0
  | a :: l => l.foldl max a

/-- The reference pair list as the claim describes it: the distinct hashed
indices sorted ascending, each carrying the maximum score among the distinct
tokens hashing to it. -/
noncomputable def refPairsOf (h : String → Int) (tokens : List String) :
    List (Nat × ℝ) :=
  let total := tokens.length
  let tf := tokenCounter tokens
  let idxs := insSort (fun a b : Nat => decide (a ≤ b))
    ((tf.map (fun tc => hashIdx h tc.1)).dedup)
  idxs.map (fun i =>
    (i, maxD ((tf.filter (fun tc => decide (hashIdx h tc.1 = i))).map
      (fun tc => tokenScore total tc.2))))

/-- The claim's reference definition, parameterized by the tokenizer:
empty output on no tokens, otherwise the reference pairs split into the
indices and values lists. -/
noncomputable def sparseReference (h : String → Int)
    (tokenize : String → List String) (text : String) :
    List Nat × List ℝ :=
  let tokens := tokenize text
  if tokens.isEmpty then ([], [])
  else
    ((refPairsOf h tokens).map (fun pr => pr.1),
     (refPairsOf h tokens).map (fun pr => pr.2))

/-- A concrete stand-in for the opaque Python string hash, used to exhibit
counterexamples. -/
def hZero : String → Int := fun _ => 0

/-- The result of folding `dictInsert` over a key-sorted pair list: runs of
equal keys collapse to the key with the running maximum of its values (the
`if val > deduped[idx]` update of the source loop).  Used to state the
intermediate shape of the dict in the correctness proof of the sparse
pipeline. -/
noncomputable def groupMaxAux (i : Nat) (v : ℝ) :
    List (Nat × ℝ) → List (Nat × ℝ)
  | [] => [(i, v)]
  | (j, w) :: rest =>
    if j = i then groupMaxAux i (if v < w then w else v) rest
    else (i, v) :: groupMaxAux j w rest

noncomputable def groupMax : List (Nat × ℝ) → List (Nat × ℝ)
  | [] => []
  | (i, v) :: rest => groupMaxAux i v rest

/-! ## Helper lemmas -/

theorem insertLe_perm {α : Type} (le : α → α → Bool) (a : α) (l : List α) :
    List.Perm (insertLe le a l) (a :: l) := by
  induction l with
  | nil => simp [insertLe]
  | cons b t ih =>
    simp only [insertLe]
    by_cases h : le a b = true
    · simp [h]
    · simp only [h]
      simp only [Bool.false_eq_true, if_false]
      exact (ih.cons b).trans (List.Perm.swap a b t)

theorem insSort_perm {α : Type} (le : α → α → Bool) (l : List α) :
    List.Perm (insSort le l) l := by
  induction l with
  | nil => simp [insSort]
  | cons a t ih =>
    exact (insertLe_perm le a (insSort le t)).trans (ih.cons a)

theorem mem_insertLe {α : Type} (le : α → α → Bool) (a x : α) (l : List α) :
    x ∈ insertLe le a l ↔ x = a ∨ x ∈ l := by
  rw [(insertLe_perm le a l).mem_iff, List.mem_cons]

theorem insertLe_pairwise {α : Type} (le : α → α → Bool)
    (htot : ∀ a b, le a b = true ∨ le b a = true)
    (htrans : ∀ a b c, le a b = true → le b c = true → le a c = true)
    (a : α) (l : List α) (hl : l.Pairwise (fun x y => le x y = true)) :
    (insertLe le a l).Pairwise (fun x y => le x y = true) := by
  induction l with
  | nil => simp [insertLe]
  | cons b t ih =>
    rcases List.pairwise_cons.mp hl with ⟨hb, ht⟩
    simp only [insertLe]
    by_cases h : le a b = true
    · simp only [h, if_true]
      refine List.pairwise_cons.mpr ⟨?_, hl⟩
      intro y hy
      rcases List.mem_cons.mp hy with hy | hy
      · rw [hy]
        exact h
      · exact htrans a b y h (hb y hy)
    · simp only [h, Bool.false_eq_true, if_false]
      refine List.pairwise_cons.mpr ⟨?_, ih ht⟩
      intro y hy
      rcases (mem_insertLe le a y t).mp hy with hy | hy
      · rw [hy]
        rcases htot a b with hab | hba
        · exact absurd hab h
        · exact hba
      · exact hb y hy

theorem insSort_pairwise {α : Type} (le : α → α → Bool)
    (htot : ∀ a b, le a b = true ∨ le b a = true)
    (htrans : ∀ a b c, le a b = true → le b c = true → le a c = true)
    (l : List α) :
    (insSort le l).Pairwise (fun x y => le x y = true) := by
  induction l with
  | nil => simp [insSort]
  | cons a t ih => exact insertLe_pairwise le htot htrans a (insSort le t) ih

theorem insSort_eq_nil_iff {α : Type} (le : α → α → Bool) (l : List α) :
    insSort le l = [] ↔ l = [] := by
  constructor
  · intro h
    have := (insSort_perm le l).length_eq
    rw [h] at this
    exact List.length_eq_zero.mp this.symm
  · intro h
    subst h
    rfl

/-! ## Claim theorems -/

/-- C1: in every worker iteration the pending query selects a document
exactly when `processed == false` and (`num_chunks` is null — rendered as
the impossible condition `False`, the column being NOT NULL with default 0 —
or `num_chunks ≥ 0`); consequently a document whose `num_chunks` equals `-1`
is never selected for processing again. -/
theorem C1_worker_pending_selection :
    (∀ d : WDoc, workerPendingFilter d = true ↔
      (d.processed = false ∧ (False ∨ 0 ≤ d.numChunks)))
    ∧ ∀ (docs : List WDoc) (d : WDoc), d ∈ docs → d.numChunks = -1 →
        selectPending docs ≠ some d := by
  constructor
  · intro d
    simp [workerPendingFilter, numChunksIsNoneConst]
  · intro docs d _ hneg hsel
    have hd := List.find?_some hsel
    rw [workerPendingFilter, hneg] at hd
    simp [numChunksIsNoneConst] at hd

/-- Witness for C1: a failed document (`num_chunks = -1`) is not selected. -/
theorem C1_worker_pending_selection_witness :
    selectPending [(⟨1, "a.pdf", false, -1⟩ : WDoc)]
      ≠ some (⟨1, "a.pdf", false, -1⟩ : WDoc) :=
  C1_worker_pending_selection.2 _ _ (List.mem_singleton.mpr rfl) rfl

/-- C10: `load_parent_document` is total; it returns the stored string at
`parent_id` when the side-store exists and the index is in range, and the
empty string when the path is empty or missing, the file is absent or
unreadable, or the index is out of range. -/
theorem C10_load_parent_document_total :
    ∀ (fs : String → Option (List String)) (parentId : Nat),
      (loadParentDocument fs none parentId = ""
        ∧ loadParentDocument fs (some "") parentId = "")
      ∧ (∀ p arr, p ≠ "" → fs p = some arr → parentId < arr.length →
          loadParentDocument fs (some p) parentId = arr.getD parentId "")
      ∧ (∀ p, fs p = none → loadParentDocument fs (some p) parentId = "")
      ∧ (∀ p arr, fs p = some arr → arr.length ≤ parentId →
          loadParentDocument fs (some p) parentId = "") := by
  intro fs parentId
  refine ⟨⟨rfl, rfl⟩, ?_, ?_, ?_⟩
  · intro p arr hp hfs hlt
    simp [loadParentDocument, hp, hfs, hlt]
  · intro p hfs
    by_cases hp : p = "" <;> simp [loadParentDocument, hp, hfs]
  · intro p arr hfs hge
    by_cases hp : p = "" <;>
      simp [loadParentDocument, hp, hfs, Nat.not_lt.mpr hge]

/-- Witness for C10: in-range lookup returns the stored parent string. -/
theorem C10_load_parent_document_total_witness :
    loadParentDocument
      (fun p => if p = "store" then some ["alpha", "beta"] else none)
      (some "store") 1 = "beta" := by
  have h := (C10_load_parent_document_total
      (fun p => if p = "store" then some ["alpha", "beta"] else none) 1).2.1
      "store" ["alpha", "beta"] (by decide) (by simp) (by decide)
  simpa using h

/-- C3: when retrieval fails, the generator does not emit a terminal `error`
event and does not close gracefully: the handler's `str(exc)` raises
`NameError` (the name is unbound), so the stream dies with an exception.
The spec-side behaviour (`specErrorPathEvents`) would have emitted the
event. -/
theorem C3_stream_error_event :
    eventGenerator [QEvent.thinkingStep "s", QEvent.doneMark]
        { contexts := [], sources := [], error := some "boom" } []
      = { events := [SSE.thinkingEv "s"], raisedError := some nameErrorExc }
    ∧ ((eventGenerator [QEvent.thinkingStep "s", QEvent.doneMark]
        { contexts := [], sources := [], error := some "boom" } []).events.filter
        (fun e => match e with | SSE.errorEv _ => true | _ => false)) = []
    ∧ specErrorPathEvents [QEvent.thinkingStep "s", QEvent.doneMark] "boom"
      = { events := [SSE.thinkingEv "s", SSE.errorEv "boom"],
          raisedError := none } :=
  ⟨rfl, rfl, rfl⟩

/-- C4: a poller tick never invokes the new-only sync and never triggers the
worker — the sync method is referenced without being called, and the
subsequent attribute access fails — even on a tick that finds a new PDF
attachment with auto-sync enabled. -/
theorem C4_poller_autosync_broken :
    (∀ (existing : List String) (items : List ZItem),
        (pollerSyncCheck existing items true).syncInvoked = false
        ∧ (pollerSyncCheck existing items true).workerTriggered = false)
    ∧ pollerSyncCheck []
        [(⟨"K1", "attachment", some "new.pdf", none⟩ : ZItem)] true
      = (⟨1, false, false,
          some "AttributeError: function object has no attribute get"⟩ :
          PollOutcome) := by
  constructor
  · intro existing items
    simp only [pollerSyncCheck, methodGetAttempt]
    split <;> exact ⟨rfl, rfl⟩
  · rfl

/-- C2 counterexample: a singleton score list does not return the base
threshold 0.2: `[0.9]` takes the `mean > 0.5` branch and yields threshold
`0.9` with reason `high_quality_results`.  Only the empty list returns the
base. -/
theorem C2_counterexample :
    dynamicThreshold [(0.9 : ℝ)] = (0.9, "high_quality_results")
    ∧ (0.9 : ℝ) ≠ 0.2 := by
  have hmean : npMean [(0.9 : ℝ)] = 0.9 := by
    simp [npMean]
  have hvar : npVar [(0.9 : ℝ)] = 0 := by
    simp [npVar, hmean]
  have hstd : npStd [(0.9 : ℝ)] = 0 := by
    rw [npStd, hvar, Real.sqrt_zero]
  constructor
  · simp only [dynamicThreshold]
    rw [if_neg (by simp)]
    rw [if_neg (fun h => by simp at h)]
    rw [if_pos (show npMean [(0.9 : ℝ)] > 0.5 by rw [hmean]; norm_num)]
    rw [hmean, hstd]
    have h1 : (0.9 : ℝ) - 0 * 0.5 = 0.9 := by norm_num
    rw [h1, max_eq_left (by norm_num)]
  · norm_num

/-- C2 amended: the empty score list returns the base threshold 0.2 with
reason `no_scores`; a singleton `[s]` never consults the clear-winner branch
and returns `s` itself when `0.3 ≤ s` (reason `high_quality_results` when
`s > 0.5`, else `adaptive`) and `0.5 · s` when `s < 0.3` (reason
`low_quality_all`). -/
theorem C2_threshold_small_lists :
    dynamicThreshold ([] : List ℝ) = (0.2, "no_scores")
    ∧ ∀ s : ℝ,
      (0.5 < s → dynamicThreshold [s] = (s, "high_quality_results"))
      ∧ (0.3 ≤ s → s ≤ 0.5 → dynamicThreshold [s] = (s, "adaptive"))
      ∧ (s < 0.3 → dynamicThreshold [s] = (s * 0.5, "low_quality_all")) := by
  constructor
  · rfl
  · intro s
    have hmean : npMean [s] = s := by
      simp [npMean]
    have hvar : npVar [s] = 0 := by
      simp [npVar, hmean]
    have hstd : npStd [s] = 0 := by
      rw [npStd, hvar, Real.sqrt_zero]
    have hmax : npMax [s] = s := rfl
    refine ⟨?_, ?_, ?_⟩
    · intro hs
      simp only [dynamicThreshold]
      rw [if_neg (by simp)]
      rw [if_neg (fun h => by simp at h)]
      rw [if_pos (show npMean [s] > 0.5 by rw [hmean]; exact hs)]
      rw [hmean, hstd]
      have h1 : s - 0 * 0.5 = s := by ring
      rw [h1, max_eq_left (by linarith)]
    · intro hs1 hs2
      simp only [dynamicThreshold]
      rw [if_neg (by simp)]
      rw [if_neg (fun h => by simp at h)]
      rw [if_neg (show ¬ npMean [s] > 0.5 by rw [hmean]; linarith)]
      rw [if_neg (show ¬ npStd [s] > 0.2 by rw [hstd]; norm_num)]
      rw [if_neg (show ¬ npMax [s] < 0.3 by rw [hmax]; linarith)]
      rw [hmean, hstd, sub_zero, max_eq_left (by linarith)]
    · intro hs
      simp only [dynamicThreshold]
      rw [if_neg (by simp)]
      rw [if_neg (fun h => by simp at h)]
      rw [if_neg (show ¬ npMean [s] > 0.5 by rw [hmean]; linarith)]
      rw [if_neg (show ¬ npStd [s] > 0.2 by rw [hstd]; norm_num)]
      rw [if_pos (show npMax [s] < 0.3 by rw [hmax]; exact hs)]
      rw [hmax]

/-- Witness for C2: the singleton `[0.9]` hits the `0.3 ≤ s` branch of the
amended statement. -/
theorem C2_threshold_small_lists_witness :
    dynamicThreshold [(0.9 : ℝ)] = (0.9, "high_quality_results") :=
  (C2_threshold_small_lists.2 0.9).1 (by norm_num)

/-- C5 counterexample: a short heading-free document produces a single child
chunk with position `"full"` — not `"middle"`, and outside the claimed set
`{beginning, middle, end, metadata}` (`_determine_position` returns `"full"`
whenever there is at most one parent). -/
theorem C5_counterexample :
    ((processDocument hsId splitId splitId 1 "hello world" "d.txt"
        none).chunks.map (fun c => c.position)) = ["full"]
    ∧ (["beginning", "middle", "end", "metadata"] : List String).contains
        "full" = false :=
  ⟨rfl, rfl⟩

theorem determinePosition_mem (p t : Nat) :
    determinePosition p t ∈ (["full", "beginning", "middle", "end"] :
      List String) := by
  simp only [determinePosition]
  split_ifs <;> simp

theorem childChunksOf_mem (docId : Int) (name sec pos : String) (pid : Nat)
    (ts : List String) (counter : Nat) (c : Chunk)
    (h : c ∈ childChunksOf docId name sec pos pid ts counter) :
    c.text ∈ ts ∧ c.parent_id = pid ∧ c.sectionLabel = sec
      ∧ c.position = pos ∧ c.is_metadata = false := by
  induction ts generalizing counter with
  | nil => simp [childChunksOf] at h
  | cons t rest ih =>
    rw [childChunksOf] at h
    rcases List.mem_cons.mp h with h | h
    · subst h
      exact ⟨List.mem_cons_self _ _, rfl, rfl, rfl, rfl⟩
    · have hr := ih (counter + 1) h
      exact ⟨List.mem_cons_of_mem _ hr.1, hr.2⟩

theorem buildChildChunks_mem (cs : String → List String) (docId : Int)
    (name : String) (psec : List String) (total offset : Nat)
    (l : List String) (p0 counter : Nat) (c : Chunk)
    (h : c ∈ buildChildChunks cs docId name psec total offset l p0 counter) :
    ∃ i, i < l.length ∧ c.parent_id = p0 + i + offset
      ∧ c.sectionLabel = psec.getD (p0 + i) "Body"
      ∧ c.position = determinePosition (p0 + i) total
      ∧ c.text ∈ cs (l.getD i "")
      ∧ c.is_metadata = false := by
  induction l generalizing p0 counter with
  | nil => simp [buildChildChunks] at h
  | cons ptext rest ih =>
    rw [buildChildChunks] at h
    rcases List.mem_append.mp h with h | h
    · have hc := childChunksOf_mem _ _ _ _ _ _ _ _ h
      refine ⟨0, by simp, ?_, ?_, ?_, ?_, hc.2.2.2.2⟩
      · simpa using hc.2.1
      · simpa using hc.2.2.1
      · simpa using hc.2.2.2.1
      · simpa using hc.1
    · rcases ih (p0 + 1) _ h with ⟨i, hi, hpid, hsec, hpos, htext, hmeta⟩
      have hidx : p0 + 1 + i = p0 + (i + 1) := by omega
      refine ⟨i + 1, by simpa using Nat.succ_lt_succ hi, ?_, ?_, ?_, ?_, hmeta⟩
      · rw [hpid]
        omega
      · rw [hsec, hidx]
      · rw [hpos, hidx]
      · simpa using htext

theorem childChunksOf_shift (docId : Int) (name sec pos : String)
    (pid : Nat) (ts : List String) (counter : Nat) :
    childChunksOf docId name sec pos (pid + 1) ts (counter + 1)
      = (childChunksOf docId name sec pos pid ts counter).map shiftChunk := by
  induction ts generalizing counter with
  | nil => rfl
  | cons t rest ih =>
    simp only [childChunksOf, List.map_cons]
    congr 1
    exact ih (counter + 1)

theorem childChunksOf_length (docId : Int) (name sec pos : String)
    (pid : Nat) (ts : List String) (counter : Nat) :
    (childChunksOf docId name sec pos pid ts counter).length = ts.length := by
  induction ts generalizing counter with
  | nil => rfl
  | cons t rest ih =>
    simp only [childChunksOf, List.length_cons, ih (counter + 1)]

theorem buildChildChunks_shift (cs : String → List String) (docId : Int)
    (name : String) (psec : List String) (total : Nat) (l : List String)
    (p0 counter : Nat) :
    buildChildChunks cs docId name psec total 1 l p0 (counter + 1)
      = (buildChildChunks cs docId name psec total 0 l p0 counter).map
          shiftChunk := by
  induction l generalizing p0 counter with
  | nil => rfl
  | cons ptext rest ih =>
    simp only [buildChildChunks, List.map_append]
    congr 1
    · simpa using childChunksOf_shift docId name (psec.getD p0 "Body")
        (determinePosition p0 total) p0 (cs ptext) counter
    · rw [childChunksOf_length, childChunksOf_length,
        show counter + 1 + (cs ptext).length
          = counter + (cs ptext).length + 1 from by omega,
        ih (p0 + 1) (counter + (cs ptext).length)]

theorem buildChildChunks_filter_meta (cs : String → List String)
    (docId : Int) (name : String) (psec : List String) (total offset : Nat)
    (l : List String) (p0 counter : Nat) :
    (buildChildChunks cs docId name psec total offset l p0 counter).filter
        (fun c => !c.is_metadata)
      = buildChildChunks cs docId name psec total offset l p0 counter := by
  apply List.filter_eq_self.mpr
  intro c hc
  rcases buildChildChunks_mem _ _ _ _ _ _ _ _ _ _ hc with
    ⟨i, _, _, _, _, _, hmeta⟩
  simp [hmeta]

/-- C5 amended: every non-metadata child chunk is tagged with the heading
path of its section ("Body" when the document has no headings), position
`_determine_position(p, total_parents)` — which lies in
{full, beginning, middle, end} — `is_metadata = false` and
`parent_id = p + parent_offset` with `p` the index of its originating
parent; every emitted position value (metadata chunk included) lies in
{full, beginning, middle, end, metadata}. -/
theorem C5_chunk_tagging :
    ∀ (hs : String → List HeaderDoc) (ps cs : String → List String)
      (docId : Int) (text name : String) (mo : Option String),
      (∀ c ∈ (processDocument hs ps cs docId text name mo).chunks,
        c.is_metadata = false →
        ∃ p, p < (buildParentChunks ps (segmentSections hs text)).1.length
          ∧ c.parent_id = p + parentOffsetOf mo
          ∧ c.sectionLabel
            = (buildParentChunks ps (segmentSections hs text)).2.getD p "Body"
          ∧ c.position = determinePosition p
              (buildParentChunks ps (segmentSections hs text)).1.length
          ∧ c.position ∈ (["full", "beginning", "middle", "end"] : List String)
          ∧ c.text
            ∈ cs ((buildParentChunks ps (segmentSections hs text)).1.getD p ""))
      ∧ (∀ c ∈ (processDocument hs ps cs docId text name mo).chunks,
          c.position ∈ (["full", "beginning", "middle", "end", "metadata"] :
            List String)) := by
  intro hs ps cs docId text name mo
  constructor
  · intro c hc hmeta
    rcases hmo : metaOptOf mo with _ | m
    · simp only [processDocument, hmo] at hc
      rcases buildChildChunks_mem _ _ _ _ _ _ _ _ _ _ hc with
        ⟨i, hi, hpid, hsec, hpos, htext, _⟩
      refine ⟨i, hi, ?_, by simpa using hsec, by simpa using hpos, ?_,
        by simpa using htext⟩
      · rw [hpid, parentOffsetOf, hmo]
        simp
      · rw [hpos]
        simpa using determinePosition_mem (0 + i) _
    · simp only [processDocument, hmo] at hc
      rcases List.mem_cons.mp hc with h | h
      · rw [h] at hmeta
        simp [metaChunkOf] at hmeta
      · rcases buildChildChunks_mem _ _ _ _ _ _ _ _ _ _ h with
          ⟨i, hi, hpid, hsec, hpos, htext, _⟩
        refine ⟨i, hi, ?_, by simpa using hsec, by simpa using hpos, ?_,
          by simpa using htext⟩
        · rw [hpid, parentOffsetOf, hmo]
          simp
        · rw [hpos]
          simpa using determinePosition_mem (0 + i) _
  · intro c hc
    rcases hmo : metaOptOf mo with _ | m
    · simp only [processDocument, hmo] at hc
      rcases buildChildChunks_mem _ _ _ _ _ _ _ _ _ _ hc with
        ⟨i, _, _, _, hpos, _, _⟩
      rw [hpos]
      have hm := determinePosition_mem (0 + i)
        (buildParentChunks ps (segmentSections hs text)).1.length
      simp only [List.mem_cons, List.not_mem_nil, or_false] at hm ⊢
      tauto
    · simp only [processDocument, hmo] at hc
      rcases List.mem_cons.mp hc with h | h
      · rw [h]
        simp [metaChunkOf]
      · rcases buildChildChunks_mem _ _ _ _ _ _ _ _ _ _ h with
          ⟨i, _, _, _, hpos, _, _⟩
        rw [hpos]
        have hm := determinePosition_mem (0 + i)
          (buildParentChunks ps (segmentSections hs text)).1.length
        simp only [List.mem_cons, List.not_mem_nil, or_false] at hm ⊢
        tauto

/-- Witness for C5: the single child chunk of a short heading-free document
carries one of the emitted position values. -/
theorem C5_chunk_tagging_witness :
    (⟨"hello world", 0, 1, "d.txt", "Body", "full", 0, none, false⟩ :
        Chunk).position
      ∈ (["full", "beginning", "middle", "end", "metadata"] : List String) :=
  (C5_chunk_tagging hsId splitId splitId 1 "hello world" "d.txt" none).2
    _ (by decide)

/-- C6: every chunk emitted by `process_document` carries a `parent_id`
that is a valid index into the parent array persisted to the side-store;
when a (non-empty) metadata chunk is provided it is stored at parent index 0
(and the emitted metadata chunk points at parent 0), and the content chunks
are exactly the chunks of the no-metadata run with `parent_id` (and
`chunk_index`) shifted by +1. -/
theorem C6_parent_index_validity :
    ∀ (hs : String → List HeaderDoc) (ps cs : String → List String)
      (docId : Int) (text name : String),
      (∀ mo : Option String,
        ∀ c ∈ (processDocument hs ps cs docId text name mo).chunks,
          c.parent_id
            < (processDocument hs ps cs docId text name mo).stored.length)
      ∧ (∀ m : String, m ≠ "" →
          (processDocument hs ps cs docId text name (some m)).stored.getD 0 ""
              = m
          ∧ (∀ c ∈ (processDocument hs ps cs docId text name (some m)).chunks,
              c.is_metadata = true → c.parent_id = 0)
          ∧ (processDocument hs ps cs docId text name (some m)).chunks.filter
                (fun c => !c.is_metadata)
              = ((processDocument hs ps cs docId text name
                  none).chunks).map shiftChunk) := by
  intro hs ps cs docId text name
  constructor
  · intro mo c hc
    rcases hmo : metaOptOf mo with _ | m
    · simp only [processDocument, hmo] at hc ⊢
      rcases buildChildChunks_mem _ _ _ _ _ _ _ _ _ _ hc with
        ⟨i, hi, hpid, _⟩
      rw [hpid]
      simpa using hi
    · simp only [processDocument, hmo] at hc ⊢
      rcases List.mem_cons.mp hc with h | h
      · rw [h]
        simp [metaChunkOf]
      · rcases buildChildChunks_mem _ _ _ _ _ _ _ _ _ _ h with
          ⟨i, hi, hpid, _⟩
        rw [hpid]
        simp only [List.length_cons]
        omega
  · intro m hm
    have hmo : metaOptOf (some m) = some m := by
      simp [metaOptOf, hm]
    refine ⟨?_, ?_, ?_⟩
    · simp only [processDocument, hmo]
      rfl
    · intro c hc htrue
      simp only [processDocument, hmo] at hc
      rcases List.mem_cons.mp hc with h | h
      · rw [h]
        rfl
      · rcases buildChildChunks_mem _ _ _ _ _ _ _ _ _ _ h with
          ⟨i, _, _, _, _, _, hfalse⟩
        rw [hfalse] at htrue
        exact absurd htrue (by simp)
    · simp only [processDocument, hmo, List.filter_cons]
      have hmc : (!(metaChunkOf m docId name).is_metadata) = false := rfl
      rw [hmc]
      simp only [Bool.false_eq_true, if_false]
      rw [buildChildChunks_filter_meta]
      exact buildChildChunks_shift cs docId name _ _ _ 0 0

/-- Witness for C6: with a metadata chunk `"M"`, the side-store array holds
`"M"` at parent index 0. -/
theorem C6_parent_index_validity_witness :
    (processDocument hsId splitId splitId 1 "hi" "d.txt"
        (some "M")).stored.getD 0 "" = "M" :=
  ((C6_parent_index_validity hsId splitId splitId 1 "hi" "d.txt").2 "M"
    (by decide)).1

theorem sortDescRD_perm (l : List RDoc) : List.Perm (sortDescRD l) l :=
  insSort_perm _ l

theorem sortDescRD_sorted (l : List RDoc) :
    (sortDescRD l).Pairwise
      (fun a b => b.rerank_score ≤ a.rerank_score) := by
  have h := insSort_pairwise
    (fun a b : RDoc => decide (b.rerank_score ≤ a.rerank_score))
    (fun a b => by
      rcases le_total b.rerank_score a.rerank_score with h | h
      · exact Or.inl (decide_eq_true h)
      · exact Or.inr (decide_eq_true h))
    (fun a b c hab hbc =>
      decide_eq_true (le_trans (of_decide_eq_true hbc) (of_decide_eq_true hab)))
    l
  exact h.imp (fun hd => of_decide_eq_true hd)

theorem setThresholdMeta_length (t : ℝ) (r : String) (l : List RDoc) :
    (setThresholdMeta t r l).length = l.length := by
  cases l <;> rfl

theorem setThresholdMeta_mem (t : ℝ) (r : String) (l : List RDoc)
    (d : RDoc) (h : d ∈ setThresholdMeta t r l) :
    ∃ d' ∈ l, d.rerank_score = d'.rerank_score := by
  cases l with
  | nil => simp [setThresholdMeta] at h
  | cons a rest =>
    rw [setThresholdMeta] at h
    rcases List.mem_cons.mp h with h | h
    · exact ⟨a, List.mem_cons_self _ _, by rw [h]⟩
    · exact ⟨d, List.mem_cons_of_mem _ h, rfl⟩

theorem setThresholdMeta_pairwise (t : ℝ) (r : String) (l : List RDoc)
    (h : l.Pairwise (fun a b => b.rerank_score ≤ a.rerank_score)) :
    (setThresholdMeta t r l).Pairwise
      (fun a b => b.rerank_score ≤ a.rerank_score) := by
  cases l with
  | nil => exact h
  | cons a rest =>
    rw [setThresholdMeta]
    rcases List.pairwise_cons.mp h with ⟨ha, hrest⟩
    exact List.pairwise_cons.mpr ⟨fun y hy => ha y hy, hrest⟩

theorem rerankScored_ne_nil (predict : String → String → ℝ) (query : String)
    (d : RDoc) (ds : List RDoc) :
    rerankScored predict query (d :: ds) ≠ [] := by
  simp [rerankScored]

theorem sortDescRD_ne_nil (l : List RDoc) (h : l ≠ []) :
    sortDescRD l ≠ [] := by
  intro hnil
  exact h ((insSort_eq_nil_iff _ l).mp hnil)

theorem rerank_branch_filtered (predict : String → String → ℝ)
    (query : String) (d : RDoc) (ds : List RDoc) (topK : Nat)
    (hfil : (sortDescRD (rerankScored predict query (d :: ds))).filter
        (fun x => decide ((dynamicThreshold ((d :: ds).map
          (fun y => predict query y.text))).1 ≤ x.rerank_score)) ≠ []) :
    rerank predict query (d :: ds) topK true
      = (setThresholdMeta
          (dynamicThreshold ((d :: ds).map (fun y => predict query y.text))).1
          (dynamicThreshold ((d :: ds).map (fun y => predict query y.text))).2
          ((sortDescRD (rerankScored predict query (d :: ds))).filter
            (fun x => decide ((dynamicThreshold ((d :: ds).map
              (fun y => predict query y.text))).1 ≤ x.rerank_score)))).take
          topK := by
  simp only [rerank, List.isEmpty_cons]
  rw [if_neg (by simp)]
  rw [if_pos trivial]
  rw [if_pos (by simpa [List.isEmpty_iff] using hfil)]

theorem rerank_branch_fallback (predict : String → String → ℝ)
    (query : String) (d : RDoc) (ds : List RDoc) (topK : Nat)
    (hfil : (sortDescRD (rerankScored predict query (d :: ds))).filter
        (fun x => decide ((dynamicThreshold ((d :: ds).map
          (fun y => predict query y.text))).1 ≤ x.rerank_score)) = []) :
    rerank predict query (d :: ds) topK true
      = (setThresholdMeta
          (dynamicThreshold ((d :: ds).map (fun y => predict query y.text))).1
          "fallback_below_threshold"
          (sortDescRD (rerankScored predict query (d :: ds)))).take 1 := by
  simp only [rerank, List.isEmpty_cons]
  rw [if_neg (by simp)]
  rw [if_pos trivial]
  rw [if_neg (fun h => h (by rw [hfil]; rfl))]
  rw [if_pos (fun h =>
    sortDescRD_ne_nil _ (rerankScored_ne_nil predict query d ds)
      (List.isEmpty_iff.mp h))]

/-- C8: with `apply_threshold = true` (and a positive `top_k`, as configured)
rerank returns `[]` exactly when the input is empty; when the input is
non-empty and every scored document falls below the computed threshold it
returns exactly the single top-scored document tagged
`fallback_below_threshold`; otherwise it returns the threshold survivors'
top_k, sorted descending by rerank score. -/
theorem C8_rerank_threshold_behaviour :
    ∀ (predict : String → String → ℝ) (query : String) (docs : List RDoc)
      (topK : Nat), 1 ≤ topK →
      (rerank predict query docs topK true = [] ↔ docs = [])
      ∧ (docs ≠ [] →
          (∀ x ∈ rerankScored predict query docs, x.rerank_score
            < (dynamicThreshold (docs.map (fun y => predict query y.text))).1) →
          ∃ top,
            rerank predict query docs topK true = [top]
            ∧ top.threshold_reason = some "fallback_below_threshold"
            ∧ (∃ d0 ∈ rerankScored predict query docs,
                top.text = d0.text ∧ top.rerank_score = d0.rerank_score)
            ∧ ∀ x ∈ rerankScored predict query docs,
                x.rerank_score ≤ top.rerank_score)
      ∧ ((∃ x ∈ rerankScored predict query docs,
            (dynamicThreshold (docs.map (fun y => predict query y.text))).1
              ≤ x.rerank_score) →
          (∀ x ∈ rerank predict query docs topK true,
            (dynamicThreshold (docs.map (fun y => predict query y.text))).1
              ≤ x.rerank_score)
          ∧ (rerank predict query docs topK true).Pairwise
              (fun a b => b.rerank_score ≤ a.rerank_score)
          ∧ (rerank predict query docs topK true).length
            = min topK ((rerankScored predict query docs).countP
                (fun x => decide ((dynamicThreshold (docs.map
                  (fun y => predict query y.text))).1 ≤ x.rerank_score)))) := by
  intro predict query docs topK htop
  rcases docs with _ | ⟨d, ds⟩
  · refine ⟨by simp [rerank], ?_, ?_⟩
    · intro h
      exact absurd rfl h
    · rintro ⟨x, hx, _⟩
      simp [rerankScored] at hx
  · have hperm := sortDescRD_perm (rerankScored predict query (d :: ds))
    have hsorted := sortDescRD_sorted (rerankScored predict query (d :: ds))
    have hSne := sortDescRD_ne_nil _ (rerankScored_ne_nil predict query d ds)
    refine ⟨⟨?_, ?_⟩, ?_, ?_⟩
    · intro hres
      exfalso
      by_cases hfil : (sortDescRD (rerankScored predict query (d :: ds))).filter
          (fun x => decide ((dynamicThreshold ((d :: ds).map
            (fun y => predict query y.text))).1 ≤ x.rerank_score)) = []
      · rw [rerank_branch_fallback predict query d ds topK hfil] at hres
        have hlen := congrArg List.length hres
        rw [List.length_take, setThresholdMeta_length] at hlen
        have hpos : 0 < (sortDescRD (rerankScored predict query
            (d :: ds))).length := List.length_pos.mpr hSne
        rcases Nat.min_eq_zero_iff.mp hlen with h | h
        · exact absurd h (by norm_num)
        · omega
      · rw [rerank_branch_filtered predict query d ds topK hfil] at hres
        have hlen := congrArg List.length hres
        rw [List.length_take, setThresholdMeta_length] at hlen
        have hpos : 0 < ((sortDescRD (rerankScored predict query
            (d :: ds))).filter (fun x => decide ((dynamicThreshold
              ((d :: ds).map (fun y => predict query y.text))).1
                ≤ x.rerank_score))).length := List.length_pos.mpr hfil
        rcases Nat.min_eq_zero_iff.mp hlen with h | h
        · omega
        · omega
    · intro h
      exact absurd h (List.cons_ne_nil d ds)
    · intro _ hall
      have hfil : (sortDescRD (rerankScored predict query (d :: ds))).filter
          (fun x => decide ((dynamicThreshold ((d :: ds).map
            (fun y => predict query y.text))).1 ≤ x.rerank_score)) = [] := by
        apply List.filter_eq_nil_iff.mpr
        intro x hx
        have hxs : x ∈ rerankScored predict query (d :: ds) :=
          hperm.mem_iff.mp hx
        have hlt := hall x hxs
        simp only [decide_eq_true_eq]
        exact not_le.mpr hlt
      rw [rerank_branch_fallback predict query d ds topK hfil]
      obtain ⟨r0, rest, hr⟩ : ∃ r0 rest,
          sortDescRD (rerankScored predict query (d :: ds)) = r0 :: rest := by
        rcases hcase : sortDescRD (rerankScored predict query (d :: ds)) with
          _ | ⟨r0, rest⟩
        · exact absurd hcase hSne
        · exact ⟨r0, rest, rfl⟩
      rw [hr, setThresholdMeta]
      refine ⟨_, rfl, rfl, ?_, ?_⟩
      · refine ⟨r0, ?_, rfl, rfl⟩
        have hmem : r0 ∈ sortDescRD (rerankScored predict query (d :: ds)) := by
          rw [hr]
          exact List.mem_cons_self _ _
        exact hperm.mem_iff.mp hmem
      · intro x hx
        have hx' : x ∈ sortDescRD (rerankScored predict query (d :: ds)) :=
          hperm.symm.mem_iff.mp hx
        rw [hr] at hx'
        rcases List.mem_cons.mp hx' with h | h
        · rw [h]
        · have hs := hsorted
          rw [hr] at hs
          exact (List.pairwise_cons.mp hs).1 x h
    · rintro ⟨x0, hx0, hx0t⟩
      have hfil : (sortDescRD (rerankScored predict query (d :: ds))).filter
          (fun x => decide ((dynamicThreshold ((d :: ds).map
            (fun y => predict query y.text))).1 ≤ x.rerank_score)) ≠ [] := by
        intro hnil
        have hx0' : x0 ∈ sortDescRD (rerankScored predict query (d :: ds)) :=
          hperm.symm.mem_iff.mp hx0
        have hin : x0 ∈ (sortDescRD (rerankScored predict query
            (d :: ds))).filter (fun x => decide ((dynamicThreshold
              ((d :: ds).map (fun y => predict query y.text))).1
                ≤ x.rerank_score)) :=
          List.mem_filter.mpr ⟨hx0', decide_eq_true hx0t⟩
        rw [hnil] at hin
        cases hin
      rw [rerank_branch_filtered predict query d ds topK hfil]
      refine ⟨?_, ?_, ?_⟩
      · intro x hx
        have hx1 := List.mem_of_mem_take hx
        rcases setThresholdMeta_mem _ _ _ _ hx1 with ⟨x', hx', hscore⟩
        have hpred := (List.mem_filter.mp hx').2
        rw [hscore]
        exact of_decide_eq_true hpred
      · exact List.Pairwise.sublist (List.take_sublist _ _)
          (setThresholdMeta_pairwise _ _ _
            (List.Pairwise.sublist (List.filter_sublist _) hsorted))
      · rw [List.length_take, setThresholdMeta_length]
        congr 1
        rw [← List.countP_eq_length_filter]
        exact hperm.countP_eq _

/-- Witness for C8: rerank on the empty list returns `[]`, and on a
non-empty list does not. -/
theorem C8_rerank_threshold_behaviour_witness :
    rerank (fun _ _ => (0 : ℝ)) "q" [] 5 true = []
    ∧ rerank (fun _ _ => (0 : ℝ)) "q" [⟨"a", 0, none, none⟩] 5 true ≠ [] := by
  constructor
  · exact (C8_rerank_threshold_behaviour (fun _ _ => (0 : ℝ)) "q" [] 5
      (by norm_num)).1.mpr rfl
  · intro h
    have := (C8_rerank_threshold_behaviour (fun _ _ => (0 : ℝ)) "q"
      [⟨"a", 0, none, none⟩] 5 (by norm_num)).1.mp h
    simp at this

theorem updateFirstRow_filenames (db : List DocRow) (fn path : String) :
    dbFilenames (updateFirstRow db fn path) = dbFilenames db := by
  induction db with
  | nil => rfl
  | cons d rest ih =>
    rw [updateFirstRow]
    by_cases h : (d.filename == fn) = true
    · simp only [h, if_true]
      rfl
    · simp only [h, Bool.false_eq_true, if_false]
      simp only [dbFilenames, List.map_cons] at ih ⊢
      rw [ih]

theorem syncSingleItem_filenames_mono (download : String → Option String)
    (it : ZItem) (db : List DocRow) (fn : String)
    (h : fn ∈ dbFilenames db) :
    fn ∈ dbFilenames (syncSingleItem download it db).2 := by
  simp only [syncSingleItem]
  by_cases hatt : it.itemType = "attachment"
  · rw [if_neg (by simp [hatt])]
    by_cases hpdf : strEndsWith (pyLower (itemSyncFilename it)) ".pdf" = true
    · rw [if_neg (by simp [hpdf])]
      rcases hfind : findByFilename db (itemSyncFilename it) with _ | ex <;>
        simp only [hfind]
      · rcases hdl : download it.key with _ | path <;> simp only [hdl]
        · exact h
        · simp only [dbFilenames, List.map_append, List.mem_append]
          exact Or.inl h
      · by_cases hproc : ex.processed = true
        · rw [if_pos hproc]
          exact h
        · rw [if_neg hproc]
          rcases hdl : download it.key with _ | path <;> simp only [hdl]
          · exact h
          · show fn ∈ dbFilenames (updateFirstRow db _ _)
            rw [updateFirstRow_filenames]
            exact h
    · rw [if_pos hpdf]
      exact h
  · rw [if_pos hatt]
    exact h

theorem syncSingleItem_queued_fields (download : String → Option String)
    (it : ZItem) (db : List DocRow)
    (hq : (syncSingleItem download it db).1 = SyncStatus.queued) :
    it.itemType = "attachment"
      ∧ strEndsWith (pyLower (itemSyncFilename it)) ".pdf" = true
      ∧ (download it.key).isSome = true := by
  simp only [syncSingleItem] at hq
  by_cases hatt : it.itemType = "attachment"
  · rw [if_neg (by simp [hatt])] at hq
    by_cases hpdf : strEndsWith (pyLower (itemSyncFilename it)) ".pdf" = true
    · rw [if_neg (by simp [hpdf])] at hq
      refine ⟨hatt, hpdf, ?_⟩
      rcases hfind : findByFilename db (itemSyncFilename it) with _ | ex <;>
        simp only [hfind] at hq
      · rcases hdl : download it.key with _ | path <;> simp only [hdl] at hq
        · simp at hq
        · rfl
      · by_cases hproc : ex.processed = true
        · rw [if_pos hproc] at hq
          simp at hq
        · rw [if_neg hproc] at hq
          rcases hdl : download it.key with _ | path <;> simp only [hdl] at hq
          · simp at hq
          · rfl
    · rw [if_pos hpdf] at hq
      simp at hq
  · rw [if_pos hatt] at hq
    simp at hq

theorem syncSingleItem_adds_filename (download : String → Option String)
    (it : ZItem) (db : List DocRow)
    (hatt : it.itemType = "attachment")
    (hpdf : strEndsWith (pyLower (itemSyncFilename it)) ".pdf" = true)
    (hdl : (download it.key).isSome = true) :
    itemSyncFilename it ∈ dbFilenames (syncSingleItem download it db).2 := by
  simp only [syncSingleItem]
  rw [if_neg (by simp [hatt])]
  rw [if_neg (by simp [hpdf])]
  obtain ⟨path, hpath⟩ := Option.isSome_iff_exists.mp hdl
  rcases hfind : findByFilename db (itemSyncFilename it) with _ | ex <;>
    simp only [hfind]
  · simp only [hpath]
    show itemSyncFilename it ∈ dbFilenames (db ++ [_])
    simp [dbFilenames]
  · have hexmem : itemSyncFilename it ∈ dbFilenames db := by
      have hmem := List.mem_of_find?_eq_some hfind
      have heq := List.find?_some hfind
      simp only [beq_iff_eq] at heq
      rw [← heq]
      exact List.mem_map_of_mem _ hmem
    by_cases hproc : ex.processed = true
    · rw [if_pos hproc]
      exact hexmem
    · rw [if_neg hproc]
      simp only [hpath]
      show itemSyncFilename it ∈ dbFilenames (updateFirstRow db _ _)
      rw [updateFirstRow_filenames]
      exact hexmem

theorem syncRun_filenames_mono (download : String → Option String)
    (items : List ZItem) (db : List DocRow) (fn : String)
    (h : fn ∈ dbFilenames db) :
    fn ∈ dbFilenames (syncRun download items db).2 := by
  induction items generalizing db with
  | nil => exact h
  | cons it rest ih =>
    exact ih _ (syncSingleItem_filenames_mono download it db fn h)

theorem syncRun_mem_adds (download : String → Option String)
    (items : List ZItem) (db : List DocRow) (it : ZItem)
    (hit : it ∈ items)
    (hatt : it.itemType = "attachment")
    (hpdf : strEndsWith (pyLower (itemSyncFilename it)) ".pdf" = true)
    (hdl : (download it.key).isSome = true) :
    itemSyncFilename it ∈ dbFilenames (syncRun download items db).2 := by
  induction items generalizing db with
  | nil => cases hit
  | cons j rest ih =>
    rcases List.mem_cons.mp hit with h | h
    · subst h
      exact syncRun_filenames_mono download rest _ _
        (syncSingleItem_adds_filename download it db hatt hpdf hdl)
    · exact ih _ h

theorem bumpCount_synced (st : SyncStatus) (c : SyncCounts)
    (h : st ≠ SyncStatus.queued) :
    (bumpCount st c).synced = c.synced := by
  cases st
  · exact absurd rfl h
  all_goals rfl

theorem syncRun_synced_zero (download : String → Option String)
    (items : List ZItem) (db : List DocRow)
    (h : ∀ it ∈ items, ∀ db' : List DocRow,
      (syncSingleItem download it db').1 ≠ SyncStatus.queued) :
    (syncRun download items db).1.synced = 0 := by
  induction items generalizing db with
  | nil => rfl
  | cons it rest ih =>
    show (bumpCount (syncSingleItem download it db).1
      (syncRun download rest (syncSingleItem download it db).2).1).synced = 0
    rw [bumpCount_synced _ _ (h it (List.mem_cons_self _ _) db)]
    exact ih _ (fun j hj => h j (List.mem_cons_of_mem _ hj))

theorem itemSyncFilename_eq_newFilterName (it : ZItem)
    (h : newFilterName it ≠ "") :
    itemSyncFilename it = newFilterName it := by
  rcases it with ⟨key, ty, fn, ti⟩
  rcases fn with _ | s
  · rcases ti with _ | t
    · simp [newFilterName, pyOrStr] at h
    · simp [itemSyncFilename, newFilterName, pyOrStr]
  · by_cases hs : s = ""
    · subst hs
      rcases ti with _ | t
      · simp [newFilterName, pyOrStr] at h
      · simp [itemSyncFilename, newFilterName, pyOrStr]
    · simp [itemSyncFilename, newFilterName, pyOrStr, hs]

theorem isNewItem_iff (existing : List String) (it : ZItem) :
    isNewItem existing it = true ↔
      (it.itemType = "attachment" ∧ newFilterName it ≠ "")
        ∧ newFilterName it ∉ existing := by
  simp [isNewItem, and_assoc]

theorem syncNewOnly_true (download : String → Option String)
    (items : List ZItem) (db : List DocRow) :
    syncNewDocumentsOnly true download items db
      = syncRun download (items.filter (isNewItem (dbFilenames db))) db := by
  rw [syncNewDocumentsOnly, if_neg (by simp)]

/-- C9: running the new-only sync twice in a row against the same external
item list and deterministic download behaviour, with no other database
writes in between, is idempotent: the second call reports `synced = 0`. -/
theorem C9_sync_new_twice_idempotent :
    ∀ (enabled : Bool) (download : String → Option String)
      (items : List ZItem) (db : List DocRow),
      ((syncNewDocumentsOnly enabled download items
        (syncNewDocumentsOnly enabled download items db).2).1).synced = 0 := by
  intro enabled download items db
  cases enabled with
  | false => rfl
  | true =>
    rw [syncNewOnly_true]
    rw [syncNewOnly_true]
    apply syncRun_synced_zero
    intro it hit db'
    obtain ⟨hitems, hcond⟩ := List.mem_filter.mp hit
    obtain ⟨⟨hatt, hne⟩, hnotin⟩ := (isNewItem_iff _ it).mp hcond
    intro hq
    obtain ⟨_, hpdf, hdl⟩ := syncSingleItem_queued_fields download it db' hq
    have hfneq := itemSyncFilename_eq_newFilterName it hne
    have hnotin0 : newFilterName it ∉ dbFilenames db := fun hmem =>
      hnotin (syncRun_filenames_mono download _ db _ hmem)
    have hit1 : it ∈ items.filter (isNewItem (dbFilenames db)) :=
      List.mem_filter.mpr ⟨hitems,
        (isNewItem_iff _ it).mpr ⟨⟨hatt, hne⟩, hnotin0⟩⟩
    have hadded := syncRun_mem_adds download _ db it hit1 hatt hpdf hdl
    rw [hfneq] at hadded
    exact hnotin hadded

theorem le_foldl_max (l : List ℝ) (a : ℝ) : a ≤ l.foldl max a := by
  induction l generalizing a with
  | nil => exact le_refl a
  | cons b t ih => exact le_trans (le_max_left a b) (ih (max a b))

theorem mem_le_foldl_max (l : List ℝ) (a x : ℝ) (hx : x ∈ l) :
    x ≤ l.foldl max a := by
  induction l generalizing a with
  | nil => cases hx
  | cons b t ih =>
    rcases List.mem_cons.mp hx with h | h
    · rw [h]
      exact le_trans (le_max_right a b) (le_foldl_max t (max a b))
    · exact ih (max a b) h

theorem foldl_max_mem (l : List ℝ) (a : ℝ) : l.foldl max a ∈ a :: l := by
  induction l generalizing a with
  | nil => simp
  | cons b t ih =>
    have h := ih (max a b)
    rcases List.mem_cons.mp h with h1 | h1
    · rcases max_choice a b with hm | hm
      · rw [List.foldl_cons, h1, hm]
        exact List.mem_cons_self _ _
      · rw [List.foldl_cons, h1, hm]
        exact List.mem_cons_of_mem _ (List.mem_cons_self _ _)
    · rw [List.foldl_cons]
      exact List.mem_cons_of_mem _ (List.mem_cons_of_mem _ h1)

theorem maxD_mem (l : List ℝ) (h : l ≠ []) : maxD l ∈ l := by
  cases l with
  | nil => exact absurd rfl h
  | cons a t => simpa [maxD] using foldl_max_mem t a

theorem le_maxD (l : List ℝ) (x : ℝ) (hx : x ∈ l) : x ≤ maxD l := by
  cases l with
  | nil => cases hx
  | cons a t =>
    rcases List.mem_cons.mp hx with h | h
    · rw [h]
      exact le_foldl_max t a
    · exact mem_le_foldl_max t a x h

theorem maxD_perm {l₁ l₂ : List ℝ} (h : l₁.Perm l₂) : maxD l₁ = maxD l₂ := by
  rcases l₁ with _ | ⟨a, t⟩
  · rw [List.Perm.eq_nil h.symm]
  · have h2 : l₂ ≠ [] := by
      intro hn
      rw [hn] at h
      simpa using h.eq_nil
    apply le_antisymm
    · exact le_maxD l₂ _ (h.mem_iff.mp (maxD_mem _ (List.cons_ne_nil a t)))
    · exact le_maxD (a :: t) _ (h.mem_iff.mpr (maxD_mem l₂ h2))

theorem lookupIdx_append_single (d : List (Nat × ℝ)) (i j : Nat) (v : ℝ)
    (hd : ∀ q ∈ d, q.1 ≠ j) :
    lookupIdx (d ++ [(i, v)]) j = if i = j then some v else none := by
  induction d with
  | nil => rfl
  | cons q rest ih =>
    obtain ⟨k, w⟩ := q
    rw [List.cons_append, lookupIdx]
    rw [if_neg (hd (k, w) (List.mem_cons_self _ _))]
    exact ih (fun q hq => hd q (List.mem_cons_of_mem _ hq))

theorem updateIdx_append_single (d : List (Nat × ℝ)) (i : Nat) (v w : ℝ)
    (hd : ∀ q ∈ d, q.1 ≠ i) :
    updateIdx (d ++ [(i, v)]) i w = d ++ [(i, w)] := by
  induction d with
  | nil => simp [updateIdx]
  | cons q rest ih =>
    obtain ⟨k, u⟩ := q
    rw [List.cons_append, updateIdx, if_neg (hd (k, u) (List.mem_cons_self _ _))]
    rw [ih (fun q hq => hd q (List.mem_cons_of_mem _ hq))]
    rfl

theorem dictFold_go (s : List (Nat × ℝ)) :
    ∀ (i : Nat) (v : ℝ) (d : List (Nat × ℝ)),
      ((i, v) :: s).Pairwise (fun a b : Nat × ℝ => a.1 ≤ b.1) →
      (∀ q ∈ d, q.1 < i) →
      List.foldl dictInsert (d ++ [(i, v)]) s = d ++ groupMaxAux i v s := by
  induction s with
  | nil =>
    intro i v d _ _
    rfl
  | cons jw rest ih =>
    intro i v d hpair hd
    obtain ⟨j, w⟩ := jw
    have hij : i ≤ j :=
      (List.pairwise_cons.mp hpair).1 (j, w) (List.mem_cons_self _ _)
    have hptail : ((j, w) :: rest).Pairwise
        (fun a b : Nat × ℝ => a.1 ≤ b.1) :=
      (List.pairwise_cons.mp hpair).2
    rw [List.foldl_cons]
    by_cases hji : j = i
    · subst hji
      have hlook : lookupIdx (d ++ [(j, v)]) j = some v := by
        rw [lookupIdx_append_single d j j v
          (fun q hq => Nat.ne_of_lt (hd q hq))]
        simp
      have hstep : dictInsert (d ++ [(j, v)]) (j, w)
          = d ++ [(j, if v < w then w else v)] := by
        simp only [dictInsert, hlook]
        by_cases hvw : v < w
        · rw [if_pos hvw, if_pos hvw,
            updateIdx_append_single d j v w
              (fun q hq => Nat.ne_of_lt (hd q hq))]
        · rw [if_neg hvw, if_neg hvw]
      rw [hstep]
      have hgm : groupMaxAux j v ((j, w) :: rest)
          = groupMaxAux j (if v < w then w else v) rest := by
        simp [groupMaxAux]
      rw [hgm]
      exact ih j (if v < w then w else v) d
        (List.pairwise_cons.mpr
          ⟨fun y hy => (List.pairwise_cons.mp hptail).1 y hy,
           (List.pairwise_cons.mp hptail).2⟩)
        hd
    · have hij' : i < j := lt_of_le_of_ne hij (fun h => hji h.symm)
      have hlook : lookupIdx (d ++ [(i, v)]) j = none := by
        rw [lookupIdx_append_single d i j v
          (fun q hq => Nat.ne_of_lt (lt_trans (hd q hq) hij'))]
        rw [if_neg (fun h => hji h.symm)]
      have hstep : dictInsert (d ++ [(i, v)]) (j, w)
          = (d ++ [(i, v)]) ++ [(j, w)] := by
        simp only [dictInsert, hlook]
      rw [hstep]
      have hd' : ∀ q ∈ d ++ [(i, v)], q.1 < j := by
        intro q hq
        rcases List.mem_append.mp hq with h | h
        · exact lt_trans (hd q h) hij'
        · rw [List.mem_singleton.mp h]
          exact hij'
      rw [ih j w (d ++ [(i, v)]) hptail hd']
      rw [List.append_assoc]
      congr 1
      have hgm : groupMaxAux i v ((j, w) :: rest)
          = (i, v) :: groupMaxAux j w rest := by
        simp [groupMaxAux, hji]
      rw [hgm]
      rfl

theorem dictFold_sorted (s : List (Nat × ℝ))
    (hpair : s.Pairwise (fun a b : Nat × ℝ => a.1 ≤ b.1)) :
    s.foldl dictInsert [] = groupMax s := by
  cases s with
  | nil => rfl
  | cons iv rest =>
    obtain ⟨i, v⟩ := iv
    have h0 : dictInsert [] (i, v) = [(i, v)] := rfl
    rw [List.foldl_cons, h0,
      show ([(i, v)] : List (Nat × ℝ)) = [] ++ [(i, v)] from rfl,
      dictFold_go rest i v [] hpair (by simp)]
    rfl

theorem iteLtMax (v w : ℝ) : (if v < w then w else v) = max v w := by
  by_cases h : v < w
  · rw [if_pos h, max_eq_right h.le]
  · rw [if_neg h, max_eq_left (not_lt.mp h)]

theorem groupMaxAux_eq (s : List (Nat × ℝ)) :
    ∀ (i : Nat) (v : ℝ),
      ((i, v) :: s).Pairwise (fun a b : Nat × ℝ => a.1 ≤ b.1) →
      groupMaxAux i v s
        = (((i, v) :: s).map Prod.fst).dedup.map
            (fun k => (k, maxD ((((i, v) :: s).filter
              (fun pr => decide (pr.1 = k))).map Prod.snd))) := by
  induction s with
  | nil =>
    intro i v _
    simp [groupMaxAux, maxD]
  | cons jw rest ih =>
    intro i v hpair
    obtain ⟨j, w⟩ := jw
    have hij : i ≤ j :=
      (List.pairwise_cons.mp hpair).1 (j, w) (List.mem_cons_self _ _)
    have hptail := (List.pairwise_cons.mp hpair).2
    have hjrest : ∀ q ∈ rest, j ≤ q.1 :=
      fun q hq => (List.pairwise_cons.mp hptail).1 q hq
    by_cases hji : j = i
    · subst hji
      have hL : groupMaxAux j v ((j, w) :: rest)
          = groupMaxAux j (if v < w then w else v) rest := by
        simp [groupMaxAux]
      rw [hL, ih j (if v < w then w else v)
        (List.pairwise_cons.mpr
          ⟨fun y hy => (List.pairwise_cons.mp hptail).1 y hy,
           (List.pairwise_cons.mp hptail).2⟩)]
      simp only [List.map_cons]
      have hk : (j :: j :: rest.map Prod.fst).dedup
          = (j :: rest.map Prod.fst).dedup :=
        List.dedup_cons_of_mem (List.mem_cons_self _ _)
      rw [hk]
      apply List.map_congr_left
      intro k _
      by_cases hkj : k = j
      · subst hkj
        have hdk : (decide (k = k) : Bool) = true := by
          simp
        simp only [List.filter_cons, hdk, if_true, List.map_cons]
        congr 1
        rw [iteLtMax]
        rfl
      · have hd : (decide (j = k) : Bool) = false := by
          simp only [decide_eq_false_iff_not]
          exact fun h => hkj h.symm
        simp only [List.filter_cons, hd, Bool.false_eq_true, if_false]
    · have hij2 : i < j := lt_of_le_of_ne hij (fun h => hji h.symm)
      have hL : groupMaxAux i v ((j, w) :: rest)
          = (i, v) :: groupMaxAux j w rest := by
        simp [groupMaxAux, hji]
      rw [hL, ih j w hptail]
      simp only [List.map_cons]
      have hnotin : i ∉ (j :: rest.map Prod.fst) := by
        intro hmem
        rcases List.mem_cons.mp hmem with h | h
        · exact absurd h (Nat.ne_of_lt hij2)
        · rcases List.mem_map.mp h with ⟨q, hq, hqe⟩
          have := hjrest q hq
          omega
      rw [List.dedup_cons_of_not_mem hnotin, List.map_cons]
      congr 1
      · have hfr : rest.filter (fun pr => decide (pr.1 = i)) = [] := by
          apply List.filter_eq_nil_iff.mpr
          intro q hq
          have := hjrest q hq
          simp only [decide_eq_true_eq]
          omega
        have hdi : (decide (i = i) : Bool) = true := by
          simp
        have hdj : (decide (j = i) : Bool) = false := by
          simp only [decide_eq_false_iff_not]
          exact hji
        simp only [List.filter_cons, hdi, if_true, hdj, Bool.false_eq_true,
          if_false, hfr, List.map_cons, List.map_nil]
        rfl
      · apply List.map_congr_left
        intro k hk
        have hkj : j ≤ k := by
          rcases List.mem_cons.mp (List.mem_dedup.mp hk) with h | h
          · omega
          · rcases List.mem_map.mp h with ⟨q, hq, hqe⟩
            have := hjrest q hq
            omega
        have hdk : (decide (i = k) : Bool) = false := by
          simp only [decide_eq_false_iff_not]
          omega
        simp only [List.filter_cons, hdk, Bool.false_eq_true, if_false]

theorem groupMax_eq (s : List (Nat × ℝ))
    (hpair : s.Pairwise (fun a b : Nat × ℝ => a.1 ≤ b.1)) :
    groupMax s = (s.map Prod.fst).dedup.map
      (fun k => (k, maxD ((s.filter
        (fun pr => decide (pr.1 = k))).map Prod.snd))) := by
  cases s with
  | nil => rfl
  | cons iv rest =>
    obtain ⟨i, v⟩ := iv
    exact groupMaxAux_eq rest i v hpair

theorem sortPairsAsc_pairwise (pairs : List (Nat × ℝ)) :
    (sortPairsAsc pairs).Pairwise (fun a b : Nat × ℝ => a.1 ≤ b.1) := by
  have h := insSort_pairwise (fun a b : Nat × ℝ => decide (a.1 ≤ b.1))
    (fun a b => by
      rcases Nat.le_total a.1 b.1 with h | h
      · exact Or.inl (decide_eq_true h)
      · exact Or.inr (decide_eq_true h))
    (fun a b c hab hbc =>
      decide_eq_true (le_trans (of_decide_eq_true hab) (of_decide_eq_true hbc)))
    pairs
  exact h.imp (fun hd => of_decide_eq_true hd)

/-- C7 amended: the sparse embedding equals the claim's reference definition
once tokenization is corrected from "maximal runs of `[a-zA-ZäöüÄÖÜß]+`" to
what the word-boundary-anchored regex actually matches — the maximal
word-character runs that consist entirely of class characters: score each
distinct token `(1 + ln count)/sqrt(total tokens)`, hash it into `[0,30000)`
keeping the maximum score per index, and emit the indices sorted ascending
with their values; empty or whitespace-only input yields no tokens and the
empty output. -/
theorem C7_sparse_embed_reference :
    ∀ (h : String → Int) (text : String),
      sparseEmbed h text = sparseReference h codeTokenize text := by
  intro h text
  simp only [sparseEmbed, sparsePipeline, sparseReference]
  by_cases he : (codeTokenize text).isEmpty
  · rw [if_pos he, if_pos he]
  · rw [if_neg he, if_neg he]
    set tokens := codeTokenize text with htok
    set pairs := (tokenCounter tokens).map
      (fun tc => (hashIdx h tc.1, tokenScore tokens.length tc.2)) with hpairs
    have hpw := sortPairsAsc_pairwise pairs
    have hperm : List.Perm (sortPairsAsc pairs) pairs := insSort_perm _ _
    have key : (sortPairsAsc pairs).foldl dictInsert []
        = refPairsOf h tokens := by
      rw [dictFold_sorted _ hpw, groupMax_eq _ hpw]
      simp only [refPairsOf]
      have hmapeq : pairs.map Prod.fst
          = (tokenCounter tokens).map (fun tc => hashIdx h tc.1) := by
        rw [hpairs, List.map_map]
        rfl
      have hkeys : ((sortPairsAsc pairs).map Prod.fst).dedup
          = insSort (fun a b : Nat => decide (a ≤ b))
              (((tokenCounter tokens).map
                (fun tc => hashIdx h tc.1)).dedup) := by
        have p1 : List.Perm ((sortPairsAsc pairs).map Prod.fst).dedup
            (pairs.map Prod.fst).dedup := (hperm.map _).dedup
        rw [hmapeq] at p1
        have hs1 : List.Sorted (fun a b : Nat => a ≤ b)
            ((sortPairsAsc pairs).map Prod.fst).dedup :=
          List.Pairwise.sublist (List.dedup_sublist _)
            (List.Pairwise.map _ (fun a b hab => hab) hpw)
        have hs2 : List.Sorted (fun a b : Nat => a ≤ b)
            (insSort (fun a b : Nat => decide (a ≤ b))
              (((tokenCounter tokens).map
                (fun tc => hashIdx h tc.1)).dedup)) := by
          have hs := insSort_pairwise (fun a b : Nat => decide (a ≤ b))
            (fun a b => by
              rcases Nat.le_total a b with h | h
              · exact Or.inl (decide_eq_true h)
              · exact Or.inr (decide_eq_true h))
            (fun a b c hab hbc => decide_eq_true
              (le_trans (of_decide_eq_true hab) (of_decide_eq_true hbc)))
            (((tokenCounter tokens).map (fun tc => hashIdx h tc.1)).dedup)
          exact hs.imp (fun hd => of_decide_eq_true hd)
        exact List.eq_of_perm_of_sorted
          (p1.trans (insSort_perm _ _).symm) hs1 hs2
      rw [hkeys]
      apply List.map_congr_left
      intro k hk
      congr 1
      have h2 : pairs.filter (fun pr => decide (pr.1 = k))
          = ((tokenCounter tokens).filter
              (fun tc => decide (hashIdx h tc.1 = k))).map
              (fun tc => (hashIdx h tc.1, tokenScore tokens.length tc.2)) := by
        rw [hpairs, List.filter_map]
        rfl
      have h3 : (pairs.filter (fun pr => decide (pr.1 = k))).map Prod.snd
          = ((tokenCounter tokens).filter
              (fun tc => decide (hashIdx h tc.1 = k))).map
              (fun tc => tokenScore tokens.length tc.2) := by
        rw [h2, List.map_map]
        rfl
      rw [← h3]
      exact maxD_perm ((hperm.filter _).map Prod.snd)
    rw [key]

/-- C7 counterexample: on the text `"hello123"` the claim's reference
tokenizer (maximal runs of class characters) yields the token `"hello"`,
but the code's word-boundary-anchored regex matches nothing, because the
maximal word run `hello123` contains digits; the two embeddings differ. -/
theorem C7_counterexample :
    (sparseEmbed hZero "hello123").1 = []
    ∧ (sparseReference hZero claimTokenize "hello123").1 = [0]
    ∧ sparseEmbed hZero "hello123"
        ≠ sparseReference hZero claimTokenize "hello123" := by
  have h1 : (sparseEmbed hZero "hello123").1 = [] := rfl
  have h2 : (sparseReference hZero claimTokenize "hello123").1 = [0] := rfl
  refine ⟨h1, h2, fun heq => ?_⟩
  rw [heq, h2] at h1
  exact List.cons_ne_nil 0 [] h1
